import Mathlib

/-!
Timing reconciliation and greedy partitioning of the `splitter` command.

A shallow embedding of `cmd/splitter/main.go` (everything after the artifact download):
the collection of test cases into the `tests` map, the per-file aggregation, the
reconciliation against the input file list, the sort by file name, the greedy
assignment to chunks and the lookup of the chunk of the current node.

Modelling conventions.
* A Go `map[K]V` is an association list with at most one entry per key (`GoMap`);
  `range` over a map visits the entries in list order. Go leaves that order
  unspecified and changes it from run to run.
* In the main model `float64` durations are exact rationals (`ℚ`): no rounding, no NaN, no
  infinities. With exact sums the visiting order of `range tests` cannot be observed.
* The section on rounded arithmetic repeats lines 203-280 with every `float64` operation
  rounded to the nearest `float64` and with the visiting order of `range tests` as an
  argument; there the order can be observed.
* Go `int` is `Int`; no arithmetic on it can overflow here (only loop counters below
  `maxNodes`).
* Writing to stdout is the returned list of lines; the error branch of the chunk lookup
  (`log.Error` then `return`, nothing written) is `none`.
-/

namespace Splitter

/-! ## Go maps -/

/-- A Go `map[K]V`: association list, at most one entry per key. -/
abbrev GoMap (K V : Type) := List (K × V)

namespace GoMap

variable {K V : Type} [DecidableEq K]

/-- The comma-ok lookup `v, ok := m[k]`. -/
def lookup : GoMap K V → K → Option V
  | [], _ => none
  | (k', v) :: rest, k => if k' = k then some v else lookup rest k

/-- The plain index expression `m[k]`: the zero value of `V` when `k` is absent. -/
def index (m : GoMap K V) (k : K) (zero : V) : V :=
  (lookup m k).getD zero

/-- The assignment `m[k] = v`. -/
def store : GoMap K V → K → V → GoMap K V
  | [], k, v => [(k, v)]
  | (k', v') :: rest, k, v => if k' = k then (k, v) :: rest else (k', v') :: store rest k v

/-- The builtin `delete(m, k)`. -/
def remove (m : GoMap K V) (k : K) : GoMap K V :=
  m.filter (fun p => decide (p.1 ≠ k))

/-- The keys visited by `for k := range m`. -/
def keys (m : GoMap K V) : List K :=
  m.map Prod.fst

end GoMap

/-! ## Data -/

/-- The `RSpecTestCase` struct: one `testcase` element of the report. -/
structure RSpecTestCase where
  Name : String
  File : String
  Time : ℚ
deriving DecidableEq

/-- The `Tests` struct. -/
structure Tests where
  Filename : String
  Name : String
  Time : ℚ
deriving DecidableEq

/-! ## The program -/

/-- Lines 68-74: blank lines are dropped from the input. -/
def filterBlank (inputFiles : List String) : List String :=
  inputFiles.filter (fun inputFile => decide (inputFile ≠ ""))

/-- Lines 188-194: every test case is stored under the key `File + "/" + Name`. -/
def collectTests (testCases : List RSpecTestCase) : GoMap String Tests :=
  testCases.foldl
    (fun tests testCase =>
      GoMap.store tests (testCase.File ++ "/" ++ testCase.Name)
        { Filename := testCase.File, Name := testCase.Name, Time := testCase.Time })
    []

/-- Lines 203-208: `filesMap[test.Filename] += test.Time; allTime += test.Time`. -/
def sumTiming (tests : GoMap String Tests) : GoMap String ℚ × ℚ :=
  tests.foldl
    (fun acc kv =>
      (GoMap.store acc.1 kv.2.Filename (GoMap.index acc.1 kv.2.Filename 0 + kv.2.Time),
        acc.2 + kv.2.Time))
    ([], 0)

/-- Lines 210-213: the average file time, `0.0` when `filesMap` is empty. -/
def avgFileTime (filesMap : GoMap String ℚ) (allTime : ℚ) : ℚ :=
  if filesMap.length > 0 then allTime / (filesMap.length : ℚ) else 0

/-- Lines 216-229: the keys of `filesMap` that no input line equals. -/
def removeCandidates (filesMap : GoMap String ℚ) (inputFiles : List String) : List String :=
  (GoMap.keys filesMap).filter (fun filename => decide (filename ∉ inputFiles))

/-- Lines 231-234: every candidate is deleted from `filesMap`. -/
def removeDisappeared (filesMap : GoMap String ℚ) (inputFiles : List String) :
    GoMap String ℚ :=
  (removeCandidates filesMap inputFiles).foldl (fun m filename => GoMap.remove m filename)
    filesMap

/-- Lines 237-242: an input line that is not yet a key is stored with the average time. -/
def addNewFiles (filesMap : GoMap String ℚ) (inputFiles : List String) (avg : ℚ) :
    GoMap String ℚ :=
  inputFiles.foldl
    (fun m line =>
      match GoMap.lookup m line with
      | some _ => m
      | none => GoMap.store m line avg)
    filesMap

/-- Lines 203-242: aggregation, average, removal of stale files, insertion of new files. -/
def reconcile (tests : GoMap String Tests) (inputFiles : List String) : GoMap String ℚ :=
  let agg := sumTiming tests
  addNewFiles (removeDisappeared agg.1 inputFiles) inputFiles (avgFileTime agg.1 agg.2)

/-- Lines 249-256: the entries of `filesMap` sorted with the less function
`filesMapSorted[i].filename < filesMapSorted[j].filename`. The keys of a map are distinct,
so every comparison sort returns this list. -/
def sortFiles (filesMap : GoMap String ℚ) : List (String × ℚ) :=
  List.insertionSort (fun a b => a.1 < b.1) filesMap

/-- Lines 261-266: `chunks[i] = []` and `timing[i] = 0.0` for `0 <= i < maxNodes`. -/
def initChunks (maxNodes : Int) : GoMap Int (List String) × GoMap Int ℚ :=
  (List.range maxNodes.toNat).foldl
    (fun st (i : Nat) => (GoMap.store st.1 (i : Int) [], GoMap.store st.2 (i : Int) 0))
    ([], [])

/-- Lines 269-276: the scan for the least loaded chunk, from `min = 100000000.0` and
`chunk = -1`; returns the final `(min, chunk)`. -/
def selectChunk (timing : GoMap Int ℚ) (maxNodes : Int) : ℚ × Int :=
  (List.range maxNodes.toNat).foldl
    (fun acc (i : Nat) =>
      if GoMap.index timing (i : Int) 0 < acc.1 then (GoMap.index timing (i : Int) 0, (i : Int))
      else acc)
    (100000000, -1)

/-- Lines 268-280, one iteration: the file is appended to the selected chunk and its time
is added to that chunk's timing. -/
def assignFile (maxNodes : Int) (st : GoMap Int (List String) × GoMap Int ℚ)
    (item : String × ℚ) : GoMap Int (List String) × GoMap Int ℚ :=
  let chunk := (selectChunk st.2 maxNodes).2
  (GoMap.store st.1 chunk (GoMap.index st.1 chunk [] ++ [item.1]),
    GoMap.store st.2 chunk (GoMap.index st.2 chunk 0 + item.2))

/-- Lines 261-280: the chunks and timings after all sorted files have been assigned. -/
def partition (filesMapSorted : List (String × ℚ)) (maxNodes : Int) :
    GoMap Int (List String) × GoMap Int ℚ :=
  filesMapSorted.foldl (assignFile maxNodes) (initChunks maxNodes)

/-- Lines 288-302: the lines written for `currentNode`; `none` is the error branch. -/
def emitChunk (chunks : GoMap Int (List String)) (currentNode : Int) : Option (List String) :=
  GoMap.lookup chunks currentNode

/-- Lines 203-280 on the collected tests. -/
def buckets (tests : GoMap String Tests) (inputFiles : List String) (maxNodes : Int) :
    GoMap Int (List String) × GoMap Int ℚ :=
  partition (sortFiles (reconcile tests inputFiles)) maxNodes

/-- The body of `main` after the download: test cases, input lines, `NODES_COUNT`, `NODE_ID`. -/
def splitter (testCases : List RSpecTestCase) (inputLines : List String)
    (maxNodes currentNode : Int) : Option (List String) :=
  emitChunk (buckets (collectTests testCases) (filterBlank inputLines) maxNodes).1 currentNode

/-! ## Quantities named by the specification -/

/-- The sum of the durations of all tests of the history. -/
def historyTotal (tests : GoMap String Tests) : ℚ :=
  (tests.map (fun kv => kv.2.Time)).sum

/-- The number of distinct files seen in the history. -/
def historyFiles (tests : GoMap String Tests) : Nat :=
  ((tests.map (fun kv => kv.2.Filename)).dedup).length

/-- The sum of the durations of all tests of the history that belong to `file`. -/
def fileTotal (tests : GoMap String Tests) (file : String) : ℚ :=
  ((tests.filter (fun kv => decide (kv.2.Filename = file))).map (fun kv => kv.2.Time)).sum

/-- The sum of all durations of a file-to-duration map. -/
def totalTime (filesMap : GoMap String ℚ) : ℚ :=
  (filesMap.map Prod.snd).sum

/-- The largest duration of a file-to-duration map, taken over the durations and `0`
(so `0` for the empty map, and the largest duration when durations are non-negative). -/
def largestTime (filesMap : GoMap String ℚ) : ℚ :=
  (filesMap.map Prod.snd).foldr max 0

/-! ## Rounded arithmetic -/

/-- The rational `2 ^ e` for an integer exponent. -/
def pow2 (e : Int) : ℚ :=
  if 0 ≤ e then (2 : ℚ) ^ e.toNat else 1 / (2 : ℚ) ^ (-e).toNat

/-- The number of binary digits of `n`, by halving; `fuel = n` always suffices. -/
def bitLength : Nat → Nat → Nat
  | 0, _ => 0
  | fuel + 1, n => if n = 0 then 0 else bitLength fuel (n / 2) + 1

/-- The binary exponent of a non-zero rational: the `e` with `2 ^ e <= |x| < 2 ^ (e + 1)`.
The difference of the bit lengths of numerator and denominator is `e` or `e + 1`. -/
def binaryExponent (x : ℚ) : Int :=
  let e := (bitLength x.num.natAbs x.num.natAbs : Int) - (bitLength x.den x.den : Int)
  if pow2 e ≤ |x| then e else e - 1

/-- Rounding to the nearest integer, a tie going to the even one. -/
def roundHalfEven (y : ℚ) : Int :=
  let f := Rat.floor y
  if y - (f : ℚ) < 1 / 2 then f
  else if 1 / 2 < y - (f : ℚ) then f + 1
  else if f % 2 = 0 then f
  else f + 1

/-- The `float64` nearest to a rational (IEEE 754 binary64, round to nearest, ties to even):
53 significant bits, and the fixed spacing `2 ^ (-1074)` below `2 ^ (-1022)`. This is the
rounding of every `float64` operation of Go; results of magnitude `2 ^ 1024` and above
(infinities) are outside the model. -/
def roundFloat64 (x : ℚ) : ℚ :=
  if x = 0 then 0
  else
    let ulp := pow2 (max (binaryExponent x) (-1022) - 52)
    (roundHalfEven (x / ulp) : ℚ) * ulp

/-- Lines 203-208 in `float64`: `visit` is the order in which `range tests` yields the
entries of the map in one run, and every `+=` rounds. -/
def sumTimingFloat (visit : List (String × Tests)) : GoMap String ℚ × ℚ :=
  visit.foldl
    (fun acc kv =>
      (GoMap.store acc.1 kv.2.Filename
          (roundFloat64 (GoMap.index acc.1 kv.2.Filename 0 + kv.2.Time)),
        roundFloat64 (acc.2 + kv.2.Time)))
    ([], 0)

/-- Lines 210-213 in `float64`: the division rounds. -/
def avgFileTimeFloat (filesMap : GoMap String ℚ) (allTime : ℚ) : ℚ :=
  if filesMap.length > 0 then roundFloat64 (allTime / (filesMap.length : ℚ)) else 0

/-- Lines 203-242 in `float64`, for one visiting order of `tests`. -/
def reconcileFloat (visit : List (String × Tests)) (inputFiles : List String) :
    GoMap String ℚ :=
  let agg := sumTimingFloat visit
  addNewFiles (removeDisappeared agg.1 inputFiles) inputFiles (avgFileTimeFloat agg.1 agg.2)

/-- Lines 268-280 in `float64`, one iteration: `timing[chunk] += item.time` rounds. -/
def assignFileFloat (maxNodes : Int) (st : GoMap Int (List String) × GoMap Int ℚ)
    (item : String × ℚ) : GoMap Int (List String) × GoMap Int ℚ :=
  let chunk := (selectChunk st.2 maxNodes).2
  (GoMap.store st.1 chunk (GoMap.index st.1 chunk [] ++ [item.1]),
    GoMap.store st.2 chunk (roundFloat64 (GoMap.index st.2 chunk 0 + item.2)))

/-- Lines 203-280 in `float64`, for one visiting order of `tests`. -/
def bucketsFloat (visit : List (String × Tests)) (inputFiles : List String) (maxNodes : Int) :
    GoMap Int (List String) × GoMap Int ℚ :=
  (sortFiles (reconcileFloat visit inputFiles)).foldl (assignFileFloat maxNodes)
    (initChunks maxNodes)

/-! ## Lemmas on Go maps -/

namespace GoMap

variable {K V : Type} [DecidableEq K]

theorem lookup_store (m : GoMap K V) (k k' : K) (v : V) :
    lookup (store m k v) k' = if k = k' then some v else lookup m k' := by
  induction m with
  | nil => simp [store, lookup]
  | cons p rest ih =>
    obtain ⟨a, b⟩ := p
    by_cases h : a = k
    · subst h
      by_cases h' : a = k' <;> simp [store, lookup, h']
    · by_cases h' : a = k'
      · subst h'
        have : ¬ k = a := fun e => h e.symm
        simp [store, lookup, h, this]
      · simp [store, lookup, h, h', ih]

theorem index_store (m : GoMap K V) (k k' : K) (v z : V) :
    index (store m k v) k' z = if k = k' then v else index m k' z := by
  unfold index
  rw [lookup_store]
  split_ifs <;> rfl

theorem lookup_remove (m : GoMap K V) (k k' : K) :
    lookup (remove m k) k' = if k = k' then none else lookup m k' := by
  induction m with
  | nil => simp [remove, lookup]
  | cons p rest ih =>
    obtain ⟨a, b⟩ := p
    unfold remove at ih ⊢
    simp only [ne_eq, decide_not] at ih ⊢
    by_cases h : a = k
    · subst h
      by_cases h' : a = k'
      · subst h'
        simpa using ih
      · simp [lookup, h', ih]
    · by_cases h' : a = k'
      · subst h'
        have : ¬ k = a := fun e => h e.symm
        simp [lookup, h, this]
      · simp [lookup, h, h', ih]

theorem lookup_eq_none_iff (m : GoMap K V) (k : K) : lookup m k = none ↔ k ∉ keys m := by
  induction m with
  | nil => simp [lookup, keys]
  | cons p rest ih =>
    obtain ⟨a, b⟩ := p
    unfold keys at ih ⊢
    by_cases h : a = k
    · subst h; simp [lookup]
    · have : ¬ k = a := fun e => h e.symm
      simp [lookup, h, this, ih]

theorem mem_of_lookup (m : GoMap K V) (k : K) (v : V) (h : lookup m k = some v) :
    (k, v) ∈ m := by
  induction m with
  | nil => simp [lookup] at h
  | cons p rest ih =>
    obtain ⟨a, b⟩ := p
    by_cases e : a = k
    · subst e
      simp [lookup] at h
      simp [h]
    · simp [lookup, e] at h
      exact List.mem_cons_of_mem _ (ih h)

theorem lookup_of_mem (m : GoMap K V) (hm : (keys m).Nodup) (k : K) (v : V)
    (h : (k, v) ∈ m) : lookup m k = some v := by
  induction m with
  | nil => simp at h
  | cons p rest ih =>
    obtain ⟨a, b⟩ := p
    unfold keys at hm ih
    simp only [List.map_cons, List.nodup_cons] at hm
    rcases List.mem_cons.1 h with e | e
    · cases e
      simp [lookup]
    · have hne : a ≠ k := by
        intro hak
        subst hak
        exact hm.1 (List.mem_map.2 ⟨(a, v), e, rfl⟩)
      simp [lookup, hne, ih hm.2 e]

theorem mem_iff_lookup (m : GoMap K V) (hm : (keys m).Nodup) (k : K) (v : V) :
    (k, v) ∈ m ↔ lookup m k = some v :=
  ⟨lookup_of_mem m hm k v, mem_of_lookup m k v⟩

theorem keys_store (m : GoMap K V) (k : K) (v : V) :
    keys (store m k v) = if k ∈ keys m then keys m else keys m ++ [k] := by
  induction m with
  | nil => simp [store, keys]
  | cons p rest ih =>
    obtain ⟨a, b⟩ := p
    unfold keys at ih ⊢
    by_cases h : a = k
    · subst h; simp [store]
    · have : ¬ k = a := fun e => h e.symm
      simp only [store, h, if_false, List.map_cons, ih, List.mem_cons, this, false_or]
      split_ifs <;> simp

theorem nodup_keys_store (m : GoMap K V) (hm : (keys m).Nodup) (k : K) (v : V) :
    (keys (store m k v)).Nodup := by
  rw [keys_store]
  split_ifs with h
  · exact hm
  · exact List.Nodup.append hm (List.nodup_singleton k) (by simpa using h)

theorem nodup_keys_remove (m : GoMap K V) (hm : (keys m).Nodup) (k : K) :
    (keys (remove m k)).Nodup := by
  unfold keys remove at *
  exact (List.Nodup.sublist (List.Sublist.map _ (List.filter_sublist _)) hm)

theorem mem_keys_iff (m : GoMap K V) (k : K) : k ∈ keys m ↔ ∃ v, lookup m k = some v := by
  have := lookup_eq_none_iff m k
  cases h : lookup m k with
  | none => simp [(this.1 h)]
  | some v =>
    have : k ∈ keys m := by
      by_contra hc
      rw [this.2 hc] at h
      cases h
    simp [this]

end GoMap

/-! ## Reconciliation -/

theorem lookup_foldl_remove (ks : List String) (m : GoMap String ℚ) (k : String) :
    GoMap.lookup (ks.foldl (fun m filename => GoMap.remove m filename) m) k
      = if k ∈ ks then none else GoMap.lookup m k := by
  induction ks generalizing m with
  | nil => simp
  | cons a ks ih =>
    simp only [List.foldl_cons, ih, GoMap.lookup_remove, List.mem_cons]
    by_cases h1 : k ∈ ks
    · simp [h1]
    · by_cases h2 : a = k
      · simp [h2]
      · have : ¬ k = a := fun e => h2 e.symm
        simp [h1, h2, this]

theorem nodup_keys_foldl_remove (ks : List String) (m : GoMap String ℚ)
    (hm : (GoMap.keys m).Nodup) :
    (GoMap.keys (ks.foldl (fun m filename => GoMap.remove m filename) m)).Nodup := by
  induction ks generalizing m with
  | nil => simpa using hm
  | cons a ks ih => exact ih _ (GoMap.nodup_keys_remove m hm a)

theorem mem_removeCandidates (m : GoMap String ℚ) (inputFiles : List String) (k : String) :
    k ∈ removeCandidates m inputFiles ↔ k ∈ GoMap.keys m ∧ k ∉ inputFiles := by
  simp [removeCandidates]

theorem lookup_removeDisappeared (m : GoMap String ℚ) (inputFiles : List String) (k : String) :
    GoMap.lookup (removeDisappeared m inputFiles) k
      = if k ∈ inputFiles then GoMap.lookup m k else none := by
  unfold removeDisappeared
  rw [lookup_foldl_remove]
  by_cases hin : k ∈ inputFiles
  · simp [mem_removeCandidates, hin]
  · by_cases hk : k ∈ GoMap.keys m
    · simp [mem_removeCandidates, hin, hk]
    · simp [mem_removeCandidates, hin, hk, (GoMap.lookup_eq_none_iff m k).2 hk]

theorem nodup_keys_removeDisappeared (m : GoMap String ℚ) (inputFiles : List String)
    (hm : (GoMap.keys m).Nodup) : (GoMap.keys (removeDisappeared m inputFiles)).Nodup :=
  nodup_keys_foldl_remove _ m hm

theorem lookup_addNewFiles (inputFiles : List String) (m : GoMap String ℚ) (avg : ℚ)
    (k : String) :
    GoMap.lookup (addNewFiles m inputFiles avg) k
      = match GoMap.lookup m k with
        | some v => some v
        | none => if k ∈ inputFiles then some avg else none := by
  unfold addNewFiles
  induction inputFiles generalizing m with
  | nil =>
    simp only [List.foldl_nil, List.not_mem_nil, if_false]
    cases h : GoMap.lookup m k <;> rfl
  | cons a l ih =>
    simp only [List.foldl_cons, ih, List.mem_cons]
    cases ha : GoMap.lookup m a with
    | some w =>
      simp only
      cases hk : GoMap.lookup m k with
      | some v => rfl
      | none =>
        have : ¬ k = a := by
          intro e
          subst e
          rw [ha] at hk
          cases hk
        simp [this]
    | none =>
      simp only [GoMap.lookup_store]
      by_cases e : a = k
      · subst e
        simp [ha]
      · have : ¬ k = a := fun e' => e e'.symm
        simp only [e, if_false, this, false_or]

theorem nodup_keys_addNewFiles (inputFiles : List String) (m : GoMap String ℚ) (avg : ℚ)
    (hm : (GoMap.keys m).Nodup) : (GoMap.keys (addNewFiles m inputFiles avg)).Nodup := by
  unfold addNewFiles
  induction inputFiles generalizing m with
  | nil => simpa using hm
  | cons a l ih =>
    simp only [List.foldl_cons]
    cases GoMap.lookup m a with
    | some w => exact ih m hm
    | none => exact ih _ (GoMap.nodup_keys_store m hm a avg)

theorem nodup_keys_sumTiming_aux (tests : GoMap String Tests) (acc : GoMap String ℚ × ℚ)
    (hm : (GoMap.keys acc.1).Nodup) :
    (GoMap.keys (tests.foldl
      (fun acc kv =>
        (GoMap.store acc.1 kv.2.Filename (GoMap.index acc.1 kv.2.Filename 0 + kv.2.Time),
          acc.2 + kv.2.Time)) acc).1).Nodup := by
  induction tests generalizing acc with
  | nil => simpa using hm
  | cons t ts ih =>
    simp only [List.foldl_cons]
    exact ih _ (GoMap.nodup_keys_store _ hm _ _)

theorem nodup_keys_sumTiming (tests : GoMap String Tests) :
    (GoMap.keys (sumTiming tests).1).Nodup :=
  nodup_keys_sumTiming_aux tests ([], 0) (by simp [GoMap.keys])

theorem lookup_reconcile (tests : GoMap String Tests) (inputFiles : List String) (k : String) :
    GoMap.lookup (reconcile tests inputFiles) k
      = if k ∈ inputFiles then
          some ((GoMap.lookup (sumTiming tests).1 k).getD
            (avgFileTime (sumTiming tests).1 (sumTiming tests).2))
        else none := by
  unfold reconcile
  simp only [lookup_addNewFiles, lookup_removeDisappeared]
  by_cases hin : k ∈ inputFiles
  · cases h : GoMap.lookup (sumTiming tests).1 k <;> simp [hin]
  · simp [hin]

theorem nodup_keys_reconcile (tests : GoMap String Tests) (inputFiles : List String) :
    (GoMap.keys (reconcile tests inputFiles)).Nodup :=
  nodup_keys_addNewFiles _ _ _
    (nodup_keys_removeDisappeared _ _ (nodup_keys_sumTiming tests))

theorem mem_keys_reconcile (tests : GoMap String Tests) (inputFiles : List String)
    (k : String) : k ∈ GoMap.keys (reconcile tests inputFiles) ↔ k ∈ inputFiles := by
  rw [GoMap.mem_keys_iff]
  simp only [lookup_reconcile]
  by_cases hin : k ∈ inputFiles <;> simp [hin]

/-! ## Sorting -/

theorem sorted_orderedInsert (a : String × ℚ) (l : List (String × ℚ))
    (hl : List.Sorted (fun a b : String × ℚ => a.1 < b.1) l) (ha : a.1 ∉ l.map Prod.fst) :
    List.Sorted (fun a b : String × ℚ => a.1 < b.1)
      (List.orderedInsert (fun a b : String × ℚ => a.1 < b.1) a l) := by
  induction l with
  | nil => simp
  | cons b l ih =>
    simp only [List.map_cons, List.mem_cons, not_or] at ha
    have hb := List.sorted_cons.1 hl
    simp only [List.orderedInsert]
    split_ifs with h
    · refine List.sorted_cons.2 ⟨?_, hl⟩
      intro x hx
      rcases List.mem_cons.1 hx with e | e
      · subst e; exact h
      · exact lt_trans h (hb.1 x e)
    · refine List.sorted_cons.2 ⟨?_, ih hb.2 ha.2⟩
      intro x hx
      rcases (List.mem_orderedInsert _).1 hx with e | e
      · subst e
        exact lt_of_le_of_ne (not_lt.1 h) (fun e => ha.1 e.symm)
      · exact hb.1 x e

theorem sorted_sortFiles (m : GoMap String ℚ) (hm : (GoMap.keys m).Nodup) :
    List.Sorted (fun a b : String × ℚ => a.1 < b.1) (sortFiles m) := by
  unfold sortFiles
  induction m with
  | nil => simp
  | cons a l ih =>
    unfold GoMap.keys at hm ih
    simp only [List.map_cons, List.nodup_cons] at hm
    simp only [List.insertionSort]
    refine sorted_orderedInsert a _ (ih hm.2) ?_
    intro hmem
    apply hm.1
    obtain ⟨p, hp, hpe⟩ := List.mem_map.1 hmem
    exact List.mem_map.2 ⟨p, (List.perm_insertionSort _ l).subset hp, hpe⟩

theorem perm_sortFiles (m : GoMap String ℚ) : (sortFiles m).Perm m :=
  List.perm_insertionSort _ m

theorem mem_sortFiles (m : GoMap String ℚ) (p : String × ℚ) : p ∈ sortFiles m ↔ p ∈ m :=
  (perm_sortFiles m).mem_iff

theorem sortFiles_congr (m₁ m₂ : GoMap String ℚ) (h₁ : (GoMap.keys m₁).Nodup)
    (h₂ : (GoMap.keys m₂).Nodup) (h : ∀ k, GoMap.lookup m₁ k = GoMap.lookup m₂ k) :
    sortFiles m₁ = sortFiles m₂ := by
  have hperm : List.Perm m₁ m₂ := by
    refine (List.perm_ext_iff_of_nodup (List.Nodup.of_map _ h₁) (List.Nodup.of_map _ h₂)).2 ?_
    rintro ⟨k, v⟩
    rw [GoMap.mem_iff_lookup m₁ h₁, GoMap.mem_iff_lookup m₂ h₂, h]
  have hp : List.Perm (sortFiles m₁) (sortFiles m₂) :=
    ((perm_sortFiles m₁).trans hperm).trans (perm_sortFiles m₂).symm
  refine List.Perm.eq_of_sorted ?_ (sorted_sortFiles m₁ h₁) (sorted_sortFiles m₂ h₂) hp
  intro a b _ _ hab hba
  exact absurd hab (lt_asymm hba)

/-! ## The scan for the least loaded chunk -/

theorem selectChunk_aux (timing : GoMap Int ℚ) (n : Nat) :
    let r := (List.range n).foldl
      (fun (acc : ℚ × Int) (i : Nat) =>
        if GoMap.index timing (i : Int) 0 < acc.1 then
          (GoMap.index timing (i : Int) 0, (i : Int))
        else acc)
      (100000000, -1)
    (r.2 = -1 ∧ r.1 = 100000000 ∧ ∀ i < n, (100000000 : ℚ) ≤ GoMap.index timing (i : Int) 0) ∨
    (∃ j < n, r.2 = (j : Int) ∧ r.1 = GoMap.index timing (j : Int) 0 ∧ r.1 < 100000000 ∧
      (∀ i < n, GoMap.index timing (j : Int) 0 ≤ GoMap.index timing (i : Int) 0) ∧
      ∀ i < j, GoMap.index timing (j : Int) 0 < GoMap.index timing (i : Int) 0) := by
  induction n with
  | zero => left; simp
  | succ n ih =>
    simp only [List.range_succ, List.foldl_append, List.foldl_cons, List.foldl_nil]
    simp only at ih
    rcases ih with ⟨h2, h1, hall⟩ | ⟨j, hj, h2, h1, hlt, hmin, hfirst⟩
    · rw [h1]
      by_cases hn : GoMap.index timing (n : Int) 0 < 100000000
      · right
        rw [if_pos hn]
        refine ⟨n, Nat.lt_succ_self n, rfl, rfl, hn, ?_, ?_⟩
        · intro i hi
          rcases Nat.lt_succ_iff_lt_or_eq.1 hi with h | h
          · exact le_of_lt (lt_of_lt_of_le hn (hall i h))
          · subst h; exact le_refl _
        · intro i hi
          exact lt_of_lt_of_le hn (hall i hi)
      · left
        rw [if_neg hn]
        refine ⟨h2, h1, ?_⟩
        intro i hi
        rcases Nat.lt_succ_iff_lt_or_eq.1 hi with h | h
        · exact hall i h
        · subst h; exact not_lt.1 hn
    · right
      by_cases hn : GoMap.index timing (n : Int) 0 < GoMap.index timing (j : Int) 0
      · rw [h1, if_pos hn]
        refine ⟨n, Nat.lt_succ_self n, rfl, rfl, ?_, ?_, ?_⟩
        · exact lt_trans hn (h1 ▸ hlt)
        · intro i hi
          rcases Nat.lt_succ_iff_lt_or_eq.1 hi with h | h
          · exact le_of_lt (lt_of_lt_of_le hn (hmin i h))
          · subst h; exact le_refl _
        · intro i hi
          exact lt_of_lt_of_le hn (hmin i hi)
      · rw [h1, if_neg hn]
        refine ⟨j, Nat.lt_succ_of_lt hj, h2, h1, hlt, ?_, hfirst⟩
        intro i hi
        rcases Nat.lt_succ_iff_lt_or_eq.1 hi with h | h
        · exact hmin i h
        · subst h; exact not_lt.1 hn

theorem selectChunk_spec (timing : GoMap Int ℚ) (n : Nat) :
    ((selectChunk timing (n : Int)).2 = -1 ∧
      ∀ i < n, (100000000 : ℚ) ≤ GoMap.index timing (i : Int) 0) ∨
    (∃ j < n, (selectChunk timing (n : Int)).2 = (j : Int) ∧
      GoMap.index timing (j : Int) 0 < 100000000 ∧
      (∀ i < n, GoMap.index timing (j : Int) 0 ≤ GoMap.index timing (i : Int) 0) ∧
      ∀ i < j, GoMap.index timing (j : Int) 0 < GoMap.index timing (i : Int) 0) := by
  have h := selectChunk_aux timing n
  simp only at h
  unfold selectChunk
  rw [Int.toNat_ofNat]
  rcases h with ⟨h2, _, hall⟩ | ⟨j, hj, h2, h1, hlt, hmin, hfirst⟩
  · exact Or.inl ⟨h2, hall⟩
  · exact Or.inr ⟨j, hj, h2, h1 ▸ hlt, hmin, hfirst⟩

theorem selectChunk_nonpos (timing : GoMap Int ℚ) (maxNodes : Int) (h : maxNodes ≤ 0) :
    selectChunk timing maxNodes = (100000000, -1) := by
  unfold selectChunk
  rw [Int.toNat_eq_zero.2 h]
  rfl

theorem selectChunk_zero (timing : GoMap Int ℚ) (n : Nat) (hn : 1 ≤ n)
    (hz : ∀ k : Int, GoMap.index timing k 0 = 0) : (selectChunk timing (n : Int)).2 = 0 := by
  rcases selectChunk_spec timing n with ⟨_, hall⟩ | ⟨j, _, h2, _, _, hfirst⟩
  · have := hall 0 hn
    rw [hz] at this
    norm_num at this
  · rcases Nat.eq_zero_or_pos j with h0 | hpos
    · rw [h2, h0]; rfl
    · have := hfirst 0 hpos
      rw [hz, hz] at this
      exact absurd this (lt_irrefl _)

/-! ## The initial chunks -/

theorem initChunks_aux (n : Nat) (k : Int) :
    let st := (List.range n).foldl
      (fun (st : GoMap Int (List String) × GoMap Int ℚ) (i : Nat) =>
        (GoMap.store st.1 (i : Int) [], GoMap.store st.2 (i : Int) 0))
      ([], [])
    GoMap.lookup st.1 k = (if 0 ≤ k ∧ k < n then some [] else none) ∧
      GoMap.index st.2 k 0 = 0 := by
  induction n with
  | zero =>
    simp only [List.range_zero, List.foldl_nil, GoMap.lookup, GoMap.index]
    constructor
    · rw [if_neg]
      intro h
      have := h.2
      simp at this
      omega
    · rfl
  | succ n ih =>
    simp only [List.range_succ, List.foldl_append, List.foldl_cons, List.foldl_nil]
    simp only at ih
    rw [GoMap.lookup_store, GoMap.index_store, ih.1, ih.2]
    constructor
    · by_cases e : (n : Int) = k
      · subst e
        simp
      · rw [if_neg e]
        by_cases h : 0 ≤ k ∧ k < n
        · rw [if_pos h, if_pos]
          refine ⟨h.1, ?_⟩
          push_cast
          omega
        · rw [if_neg h, if_neg]
          intro h'
          apply h
          refine ⟨h'.1, ?_⟩
          have := h'.2
          push_cast at this
          omega
    · split_ifs <;> rfl

theorem lookup_initChunks (maxNodes k : Int) :
    GoMap.lookup (initChunks maxNodes).1 k
      = if 0 ≤ k ∧ k < maxNodes then some [] else none := by
  have h := (initChunks_aux maxNodes.toNat k).1
  simp only at h
  unfold initChunks
  rw [h]
  by_cases hk : 0 ≤ k ∧ k < maxNodes
  · rw [if_pos hk, if_pos]
    refine ⟨hk.1, ?_⟩
    have := hk.2
    omega
  · rw [if_neg hk, if_neg]
    intro h'
    apply hk
    refine ⟨h'.1, ?_⟩
    have := h'.2
    omega

theorem index_initChunks (maxNodes k : Int) : GoMap.index (initChunks maxNodes).2 k 0 = 0 := by
  have h := (initChunks_aux maxNodes.toNat k).2
  simp only at h
  unfold initChunks
  exact h

/-! ## Invariants of the assignment loop -/

theorem foldl_assignFile_files (maxNodes : Int) (P : String → Prop)
    (items : List (String × ℚ)) (st : GoMap Int (List String) × GoMap Int ℚ)
    (hst : ∀ k files, GoMap.lookup st.1 k = some files → ∀ f ∈ files, P f)
    (hit : ∀ p ∈ items, P p.1) :
    ∀ k files, GoMap.lookup (items.foldl (assignFile maxNodes) st).1 k = some files →
      ∀ f ∈ files, P f := by
  induction items generalizing st with
  | nil => simpa using hst
  | cons p items ih =>
    simp only [List.foldl_cons]
    apply ih
    · intro k files hk f hf
      simp only [assignFile, GoMap.lookup_store] at hk
      split_ifs at hk with hc
      · cases hk
        rcases List.mem_append.1 hf with h | h
        · unfold GoMap.index at h
          cases hl : GoMap.lookup st.1 (selectChunk st.2 maxNodes).2 with
          | none => rw [hl] at h; simp at h
          | some l =>
            rw [hl] at h
            exact hst _ l hl f h
        · rw [List.mem_singleton.1 h]
          exact hit p (List.mem_cons_self _ _)
      · exact hst k files hk f hf
    · intro q hq
      exact hit q (List.mem_cons_of_mem _ hq)

theorem partition_files (items : List (String × ℚ)) (maxNodes k : Int) (files : List String)
    (h : GoMap.lookup (partition items maxNodes).1 k = some files) :
    ∀ f ∈ files, f ∈ items.map Prod.fst := by
  unfold partition at h
  refine foldl_assignFile_files maxNodes (fun f => f ∈ items.map Prod.fst) items _ ?_ ?_
    k files h
  · intro k files hk f hf
    rw [lookup_initChunks] at hk
    split_ifs at hk
    cases hk
    simp at hf
  · intro p hp
    exact List.mem_map.2 ⟨p, hp, rfl⟩

theorem foldl_assignFile_nonpos (maxNodes : Int) (hN : maxNodes ≤ 0)
    (items : List (String × ℚ)) (st : GoMap Int (List String) × GoMap Int ℚ)
    (hst : ∀ k : Int, k ≠ -1 → GoMap.lookup st.1 k = none) :
    ∀ k : Int, k ≠ -1 → GoMap.lookup (items.foldl (assignFile maxNodes) st).1 k = none := by
  induction items generalizing st with
  | nil => simpa using hst
  | cons p items ih =>
    simp only [List.foldl_cons]
    apply ih
    intro k hk
    simp only [assignFile, selectChunk_nonpos _ _ hN, GoMap.lookup_store]
    rw [if_neg (fun e => hk e.symm)]
    exact hst k hk

theorem foldl_assignFile_zero (n : Nat) (hn : 1 ≤ n) (items : List (String × ℚ))
    (st : GoMap Int (List String) × GoMap Int ℚ) (done : List String)
    (hit : ∀ p ∈ items, p.2 = 0)
    (hz : ∀ k : Int, GoMap.index st.2 k 0 = 0)
    (h0 : GoMap.lookup st.1 0 = some done) :
    (∀ k : Int, GoMap.index (items.foldl (assignFile (n : Int)) st).2 k 0 = 0) ∧
      GoMap.lookup (items.foldl (assignFile (n : Int)) st).1 0
        = some (done ++ items.map Prod.fst) ∧
      ∀ k : Int, k ≠ 0 →
        GoMap.lookup (items.foldl (assignFile (n : Int)) st).1 k = GoMap.lookup st.1 k := by
  induction items generalizing st done with
  | nil => simp [hz, h0]
  | cons p items ih =>
    simp only [List.foldl_cons]
    have hc : (selectChunk st.2 (n : Int)).2 = 0 := selectChunk_zero st.2 n hn hz
    have hp : p.2 = 0 := hit p (List.mem_cons_self _ _)
    have hz' : ∀ k : Int, GoMap.index (assignFile (n : Int) st p).2 k 0 = 0 := by
      intro k
      simp only [assignFile, hc, GoMap.index_store, hz, hp, add_zero]
      split_ifs <;> rfl
    have h0' : GoMap.lookup (assignFile (n : Int) st p).1 0 = some (done ++ [p.1]) := by
      simp only [assignFile, hc, GoMap.lookup_store, if_true, GoMap.index, h0, Option.getD_some]
    obtain ⟨r1, r2, r3⟩ := ih (assignFile (n : Int) st p) (done ++ [p.1])
      (fun q hq => hit q (List.mem_cons_of_mem _ hq)) hz' h0'
    refine ⟨r1, ?_, ?_⟩
    · rw [r2]; simp
    · intro k hk
      rw [r3 k hk]
      simp only [assignFile, hc, GoMap.lookup_store]
      rw [if_neg (fun e => hk e.symm)]

theorem sum_index_store_of_lt (timing : GoMap Int ℚ) (n j : Nat) (hj : j < n) (d : ℚ) :
    ∑ i ∈ Finset.range n,
        GoMap.index (GoMap.store timing (j : Int) (GoMap.index timing (j : Int) 0 + d)) (i : Int) 0
      = (∑ i ∈ Finset.range n, GoMap.index timing (i : Int) 0) + d := by
  have h : ∀ i ∈ Finset.range n,
      GoMap.index (GoMap.store timing (j : Int) (GoMap.index timing (j : Int) 0 + d)) (i : Int) 0
        = GoMap.index timing (i : Int) 0 + (if i = j then d else 0) := by
    intro i _
    rw [GoMap.index_store]
    by_cases e : i = j
    · subst e; simp
    · have : ¬ (j : Int) = (i : Int) := by
        intro h'
        exact e (Int.ofNat.inj h').symm
      simp [e, this]
  rw [Finset.sum_congr rfl h, Finset.sum_add_distrib, Finset.sum_ite_eq']
  simp [hj]

theorem foldl_assignFile_loads (n : Nat) (hn : 1 ≤ n) (S M : ℚ)
    (items : List (String × ℚ)) (st : GoMap Int (List String) × GoMap Int ℚ)
    (hit : ∀ p ∈ items, 0 ≤ p.2 ∧ p.2 ≤ M)
    (hsum : (∑ i ∈ Finset.range n, GoMap.index st.2 (i : Int) 0) + (items.map Prod.snd).sum ≤ S)
    (hb : ∀ i < n, GoMap.index st.2 (i : Int) 0 ≤ S / (n : ℚ) + M) :
    (∑ i ∈ Finset.range n, GoMap.index (items.foldl (assignFile (n : Int)) st).2 (i : Int) 0) ≤ S ∧
      ∀ i < n, GoMap.index (items.foldl (assignFile (n : Int)) st).2 (i : Int) 0
        ≤ S / (n : ℚ) + M := by
  induction items generalizing st with
  | nil => simpa using And.intro hsum hb
  | cons p items ih =>
    simp only [List.foldl_cons]
    have hp := hit p (List.mem_cons_self _ _)
    have hrest : 0 ≤ (items.map Prod.snd).sum := by
      apply List.sum_nonneg
      intro x hx
      obtain ⟨q, hq, rfl⟩ := List.mem_map.1 hx
      exact (hit q (List.mem_cons_of_mem _ hq)).1
    simp only [List.map_cons, List.sum_cons] at hsum
    have hnpos : (0 : ℚ) < (n : ℚ) := by exact_mod_cast hn
    apply ih _ (fun q hq => hit q (List.mem_cons_of_mem _ hq))
    · rcases selectChunk_spec st.2 n with ⟨hc, _⟩ | ⟨j, hj, hc, _, _, _⟩
      · have h : ∀ i ∈ Finset.range n,
            GoMap.index (assignFile (n : Int) st p).2 (i : Int) 0 = GoMap.index st.2 (i : Int) 0 := by
          intro i _
          simp only [assignFile, hc, GoMap.index_store]
          rw [if_neg]
          omega
        rw [Finset.sum_congr rfl h]
        linarith
      · simp only [assignFile, hc]
        rw [sum_index_store_of_lt st.2 n j hj]
        linarith
    · intro i hi
      rcases selectChunk_spec st.2 n with ⟨hc, _⟩ | ⟨j, hj, hc, _, hmin, _⟩
      · simp only [assignFile, hc, GoMap.index_store]
        rw [if_neg (by omega)]
        exact hb i hi
      · simp only [assignFile, hc, GoMap.index_store]
        split_ifs with e
        · have hle : (n : ℚ) * GoMap.index st.2 (j : Int) 0
              ≤ ∑ i ∈ Finset.range n, GoMap.index st.2 (i : Int) 0 := by
            have := Finset.sum_le_sum (fun i hi => hmin i (Finset.mem_range.1 hi))
            simpa using this
          have h1 : GoMap.index st.2 (j : Int) 0 ≤ S / (n : ℚ) := by
            rw [le_div_iff₀ hnpos]
            linarith
          linarith [hp.2]
        · exact hb i hi

/-! ## Aggregation -/

theorem sumTiming_aux (tests : GoMap String Tests) (acc : GoMap String ℚ × ℚ) (k : String) :
    let r := tests.foldl
      (fun (acc : GoMap String ℚ × ℚ) (kv : String × Tests) =>
        (GoMap.store acc.1 kv.2.Filename (GoMap.index acc.1 kv.2.Filename 0 + kv.2.Time),
          acc.2 + kv.2.Time)) acc
    r.2 = acc.2 + historyTotal tests ∧
      GoMap.index r.1 k 0 = GoMap.index acc.1 k 0 + fileTotal tests k ∧
      (k ∈ GoMap.keys r.1 ↔ k ∈ GoMap.keys acc.1 ∨ k ∈ tests.map (fun kv => kv.2.Filename)) := by
  induction tests generalizing acc with
  | nil => simp [historyTotal, fileTotal]
  | cons t ts ih =>
    simp only [List.foldl_cons]
    have h := ih (GoMap.store acc.1 t.2.Filename (GoMap.index acc.1 t.2.Filename 0 + t.2.Time),
      acc.2 + t.2.Time)
    simp only at h
    obtain ⟨h1, h2, h3⟩ := h
    refine ⟨?_, ?_, ?_⟩
    · rw [h1]
      simp only [historyTotal, List.map_cons, List.sum_cons]
      ring
    · rw [h2, GoMap.index_store]
      by_cases e : t.2.Filename = k
      · subst e
        simp only [fileTotal, if_true, List.filter_cons, decide_True, List.map_cons,
          List.sum_cons]
        ring
      · simp only [fileTotal, e, if_false, List.filter_cons, decide_False]
        simp
    · rw [h3, GoMap.keys_store]
      simp only [List.map_cons, List.mem_cons]
      by_cases e : t.2.Filename = k
      · subst e
        split_ifs with hm <;> simp [hm]
      · have : ¬ k = t.2.Filename := fun e' => e e'.symm
        split_ifs with hm <;> simp [this]

theorem sumTiming_snd (tests : GoMap String Tests) : (sumTiming tests).2 = historyTotal tests := by
  have h := (sumTiming_aux tests ([], 0) "").1
  simp only [zero_add] at h
  exact h

theorem index_sumTiming (tests : GoMap String Tests) (k : String) :
    GoMap.index (sumTiming tests).1 k 0 = fileTotal tests k := by
  have h := (sumTiming_aux tests ([], 0) k).2.1
  simp only [GoMap.index, GoMap.lookup, Option.getD_none, zero_add] at h
  exact h

theorem mem_keys_sumTiming (tests : GoMap String Tests) (k : String) :
    k ∈ GoMap.keys (sumTiming tests).1 ↔ k ∈ tests.map (fun kv => kv.2.Filename) := by
  have h := (sumTiming_aux tests ([], 0) k).2.2
  simp only [GoMap.keys, List.map_nil, List.not_mem_nil, false_or] at h
  exact h

theorem length_sumTiming (tests : GoMap String Tests) :
    (sumTiming tests).1.length = historyFiles tests := by
  have hperm : List.Perm (GoMap.keys (sumTiming tests).1)
      ((tests.map (fun kv => kv.2.Filename)).dedup) := by
    refine (List.perm_ext_iff_of_nodup (nodup_keys_sumTiming tests) (List.nodup_dedup _)).2 ?_
    intro k
    rw [mem_keys_sumTiming, List.mem_dedup]
  have := hperm.length_eq
  simpa [GoMap.keys, historyFiles] using this

theorem avgFileTime_sumTiming (tests : GoMap String Tests) :
    avgFileTime (sumTiming tests).1 (sumTiming tests).2
      = if historyFiles tests = 0 then 0 else historyTotal tests / (historyFiles tests : ℚ) := by
  unfold avgFileTime
  rw [length_sumTiming, sumTiming_snd]
  by_cases h : historyFiles tests = 0
  · simp [h]
  · have : historyFiles tests > 0 := Nat.pos_of_ne_zero h
    simp [h, this]

/-! ## Reconciliation laws -/

theorem average_fill_aux (tests : GoMap String Tests) (inputFiles : List String) (g : String)
    (hin : g ∈ inputFiles) (hnew : g ∉ tests.map (fun kv => kv.2.Filename)) :
    GoMap.lookup (reconcile tests inputFiles) g
      = some (if historyFiles tests = 0 then 0
          else historyTotal tests / (historyFiles tests : ℚ)) := by
  have hk : g ∉ GoMap.keys (sumTiming tests).1 := by
    rw [mem_keys_sumTiming]
    exact hnew
  rw [lookup_reconcile, if_pos hin, (GoMap.lookup_eq_none_iff _ _).2 hk, Option.getD_none,
    avgFileTime_sumTiming]

/-- C4 (average-fill law): an input file without a record in the history is stored in the
reconciled map with the sum of all historical test durations divided by the number of
distinct historical files, and with `0` when the history has no file; the value depends on
the history alone, not on the input list. -/
theorem average_fill (tests : GoMap String Tests) (inputFiles : List String) (f : String)
    (hin : f ∈ inputFiles) (hnew : ∀ kv ∈ tests, kv.2.Filename ≠ f) :
    GoMap.lookup (reconcile tests inputFiles) f
      = some (if historyFiles tests = 0 then 0
          else historyTotal tests / (historyFiles tests : ℚ)) := by
  refine average_fill_aux tests inputFiles f hin ?_
  intro hmem
  obtain ⟨kv, hkv, e⟩ := List.mem_map.1 hmem
  exact hnew kv hkv e

/-- C4, Scenario A: history `fileA = 4s + 6s`, input `[fileA, fileB]` gives `fileB = 10`. -/
theorem average_fill_witness :
    GoMap.lookup
        (reconcile
          (collectTests [{ Name := "t1", File := "fileA", Time := 4 },
            { Name := "t2", File := "fileA", Time := 6 }])
          ["fileA", "fileB"]) "fileB"
      = some 10 :=
  (average_fill
    (collectTests [{ Name := "t1", File := "fileA", Time := 4 },
      { Name := "t2", File := "fileA", Time := 6 }])
    ["fileA", "fileB"] "fileB" (by decide) (by decide)).trans (by decide!)

/-- C5 (stale-drop law): a file of the history that is not an input file is absent from the
reconciled map and from the file list of every chunk, while the average given to new files
is still the total over the whole history (the stale file included) divided by the number
of historical files. -/
theorem stale_drop (tests : GoMap String Tests) (inputFiles : List String) (maxNodes : Int)
    (f : String) (hhist : f ∈ tests.map (fun kv => kv.2.Filename)) (hnot : f ∉ inputFiles) :
    GoMap.lookup (reconcile tests inputFiles) f = none ∧
      (∀ k files, GoMap.lookup (buckets tests inputFiles maxNodes).1 k = some files →
        f ∉ files) ∧
      ∀ g ∈ inputFiles, g ∉ tests.map (fun kv => kv.2.Filename) →
        GoMap.lookup (reconcile tests inputFiles) g
          = some (historyTotal tests / (historyFiles tests : ℚ)) := by
  refine ⟨?_, ?_, ?_⟩
  · rw [lookup_reconcile, if_neg hnot]
  · intro k files hk hf
    have h1 := partition_files _ maxNodes k files hk f hf
    obtain ⟨p, hp, e⟩ := List.mem_map.1 h1
    have h2 : f ∈ GoMap.keys (reconcile tests inputFiles) :=
      List.mem_map.2 ⟨p, (mem_sortFiles _ p).1 hp, e⟩
    exact hnot ((mem_keys_reconcile tests inputFiles f).1 h2)
  · intro g hg hnew
    have hne : historyFiles tests ≠ 0 := by
      unfold historyFiles
      intro h0
      have hnil := List.length_eq_zero.1 h0
      have hmem : f ∈ (tests.map (fun kv => kv.2.Filename)).dedup := List.mem_dedup.2 hhist
      rw [hnil] at hmem
      simp at hmem
    have h := average_fill_aux tests inputFiles g hg hnew
    rw [if_neg hne] at h
    exact h

/-- C5, Scenario D: `fileX` has 5s in the history and is not an input file. -/
theorem stale_drop_witness :
    GoMap.lookup
        (reconcile (collectTests [{ Name := "t", File := "fileX", Time := 5 }]) ["fileA"])
        "fileX" = none ∧
      (∀ k files,
        GoMap.lookup
            (buckets (collectTests [{ Name := "t", File := "fileX", Time := 5 }]) ["fileA"] 2).1
            k = some files →
          "fileX" ∉ files) ∧
      ∀ g ∈ ["fileA"],
        g ∉ (collectTests [{ Name := "t", File := "fileX", Time := 5 }]).map
            (fun kv => kv.2.Filename) →
          GoMap.lookup
              (reconcile (collectTests [{ Name := "t", File := "fileX", Time := 5 }]) ["fileA"])
              g
            = some (historyTotal (collectTests [{ Name := "t", File := "fileX", Time := 5 }]) /
                (historyFiles (collectTests [{ Name := "t", File := "fileX", Time := 5 }]) : ℚ)) :=
  stale_drop (collectTests [{ Name := "t", File := "fileX", Time := 5 }]) ["fileA"] 2 "fileX"
    (by decide) (by decide)

/-! ## Determinism -/

/-- With exact durations, two input file lists with the same elements, in any order and with
any repetitions, give the same chunks (file sequences) and the same chunk timings, for a
fixed history and node count. -/
theorem order_independence (tests : GoMap String Tests) (inputFiles₁ inputFiles₂ : List String)
    (maxNodes : Int) (h : ∀ f, f ∈ inputFiles₁ ↔ f ∈ inputFiles₂) :
    buckets tests inputFiles₁ maxNodes = buckets tests inputFiles₂ maxNodes := by
  unfold buckets
  have hs : sortFiles (reconcile tests inputFiles₁) = sortFiles (reconcile tests inputFiles₂) := by
    refine sortFiles_congr _ _ (nodup_keys_reconcile _ _) (nodup_keys_reconcile _ _) ?_
    intro k
    rw [lookup_reconcile, lookup_reconcile]
    by_cases hk : k ∈ inputFiles₁
    · rw [if_pos hk, if_pos ((h k).1 hk)]
    · rw [if_neg hk, if_neg (fun hk' => hk ((h k).2 hk'))]
  rw [hs]

/-- The exact model at a reordered input with a repeated entry. -/
theorem order_independence_witness :
    buckets (collectTests [{ Name := "t", File := "a", Time := 3 }]) ["a", "b"] 2
      = buckets (collectTests [{ Name := "t", File := "a", Time := 3 }]) ["b", "a", "b"] 2 :=
  order_independence (collectTests [{ Name := "t", File := "a", Time := 3 }]) ["a", "b"]
    ["b", "a", "b"] 2
    (by
      intro f
      simp only [List.mem_cons, List.mem_singleton, List.not_mem_nil]
      tauto)

/-! ## The balance bound -/

theorem le_largestTime (filesMap : GoMap String ℚ) (p : String × ℚ) (hp : p ∈ filesMap) :
    p.2 ≤ largestTime filesMap := by
  unfold largestTime
  induction filesMap with
  | nil => simp at hp
  | cons q rest ih =>
    simp only [List.map_cons, List.foldr_cons]
    rcases List.mem_cons.1 hp with e | e
    · subst e; exact le_max_left _ _
    · exact le_trans (ih e) (le_max_right _ _)

theorem largestTime_nonneg (filesMap : GoMap String ℚ) : 0 ≤ largestTime filesMap := by
  unfold largestTime
  induction filesMap with
  | nil => simp
  | cons q rest ih =>
    simp only [List.map_cons, List.foldr_cons]
    exact le_trans ih (le_max_right _ _)

theorem partition_loads (filesMap : GoMap String ℚ) (n : Nat) (hn : 1 ≤ n)
    (hpos : ∀ p ∈ filesMap, 0 ≤ p.2) :
    (∑ i ∈ Finset.range n, GoMap.index (partition (sortFiles filesMap) (n : Int)).2 (i : Int) 0)
        ≤ totalTime filesMap ∧
      ∀ i < n, GoMap.index (partition (sortFiles filesMap) (n : Int)).2 (i : Int) 0
        ≤ totalTime filesMap / (n : ℚ) + largestTime filesMap := by
  have hsumeq : ((sortFiles filesMap).map Prod.snd).sum = totalTime filesMap :=
    ((perm_sortFiles filesMap).map Prod.snd).sum_eq
  have htot : 0 ≤ totalTime filesMap := by
    apply List.sum_nonneg
    intro x hx
    obtain ⟨q, hq, rfl⟩ := List.mem_map.1 hx
    exact hpos q hq
  have hnpos : (0 : ℚ) < (n : ℚ) := by exact_mod_cast hn
  unfold partition
  refine foldl_assignFile_loads n hn (totalTime filesMap) (largestTime filesMap) _ _ ?_ ?_ ?_
  · intro p hp
    have hp' := (mem_sortFiles filesMap p).1 hp
    exact ⟨hpos p hp', le_largestTime filesMap p hp'⟩
  · simp only [index_initChunks, Finset.sum_const_zero, zero_add]
    exact le_of_eq hsumeq
  · intro i _
    rw [index_initChunks]
    exact add_nonneg (div_nonneg htot (le_of_lt hnpos)) (largestTime_nonneg filesMap)

/-- C3 (balance bound): with non-negative durations and `N >= 1` nodes, the timing of every
chunk `0 <= i < N` is at most `max(largest duration, totalTime / N + largest duration)`, and
with `N = 1` the timing of the single chunk is at most the sum of all durations. -/
theorem balance_bound (filesMap : GoMap String ℚ) (maxNodes : Int) (hN : 1 ≤ maxNodes)
    (hpos : ∀ p ∈ filesMap, 0 ≤ p.2) :
    (∀ i : Int, 0 ≤ i → i < maxNodes →
      GoMap.index (partition (sortFiles filesMap) maxNodes).2 i 0
        ≤ max (largestTime filesMap)
            (totalTime filesMap / (maxNodes : ℚ) + largestTime filesMap)) ∧
      GoMap.index (partition (sortFiles filesMap) 1).2 0 0 ≤ totalTime filesMap := by
  obtain ⟨n, rfl⟩ := Int.eq_ofNat_of_zero_le (le_trans (by decide) hN)
  have hn : 1 ≤ n := by exact_mod_cast hN
  obtain ⟨_, hb⟩ := partition_loads filesMap n hn hpos
  constructor
  · intro i hi0 hi
    obtain ⟨j, rfl⟩ := Int.eq_ofNat_of_zero_le hi0
    have hj : j < n := by exact_mod_cast hi
    refine le_trans (hb j hj) ?_
    rw [Int.cast_natCast]
    exact le_max_right _ _
  · have h := (partition_loads filesMap 1 (le_refl 1) hpos).1
    simpa using h

/-- C3 at three files on two nodes. -/
theorem balance_bound_witness :
    (∀ i : Int, 0 ≤ i → i < 2 →
      GoMap.index (partition (sortFiles [("a", 3), ("b", 1), ("c", 2)]) 2).2 i 0
        ≤ max (largestTime [("a", 3), ("b", 1), ("c", 2)])
            (totalTime [("a", 3), ("b", 1), ("c", 2)] / ((2 : Int) : ℚ)
              + largestTime [("a", 3), ("b", 1), ("c", 2)])) ∧
      GoMap.index (partition (sortFiles [("a", 3), ("b", 1), ("c", 2)]) 1).2 0 0
        ≤ totalTime [("a", 3), ("b", 1), ("c", 2)] :=
  balance_bound [("a", 3), ("b", 1), ("c", 2)] 2 (by decide) (by decide!)

/-! ## Empty history -/

theorem reconcile_empty_values (inputFiles : List String) (p : String × ℚ)
    (hp : p ∈ reconcile [] inputFiles) : p.2 = 0 := by
  have h := (GoMap.mem_iff_lookup _ (nodup_keys_reconcile [] inputFiles) p.1 p.2).1 hp
  rw [lookup_reconcile] at h
  split_ifs at h
  have hv : (GoMap.lookup (sumTiming []).1 p.1).getD (avgFileTime (sumTiming []).1 (sumTiming []).2)
      = 0 := by
    simp [sumTiming, avgFileTime, GoMap.lookup]
  rw [hv] at h
  exact (Option.some.inj h).symm

/-- C6 as stated fails: with an empty history, input `[f1, f2, f3]` and two nodes the chunks
are not `[f1, f3]` and `[f2]`; chunk 0 holds all three files and chunk 1 is empty. -/
theorem empty_history_not_round_robin :
    ¬ (GoMap.lookup (buckets (collectTests []) ["f1", "f2", "f3"] 2).1 0 = some ["f1", "f3"] ∧
        GoMap.lookup (buckets (collectTests []) ["f1", "f2", "f3"] 2).1 1 = some ["f2"]) ∧
      buckets (collectTests []) ["f1", "f2", "f3"] 2
        = ([(0, ["f1", "f2", "f3"]), (1, [])], [(0, 0), (1, 0)]) := by
  decide!

/-- C6 amended: with an empty history every input file gets duration `0`, and with `N >= 1`
nodes every file goes to chunk 0 (each tie is won by the lowest index), in ascending file
name order; the other chunks stay empty and every timing is `0`. -/
theorem empty_history_fills_first_chunk (inputFiles : List String) (maxNodes : Int)
    (hN : 1 ≤ maxNodes) :
    (∀ f ∈ inputFiles, GoMap.lookup (reconcile (collectTests []) inputFiles) f = some 0) ∧
      (∃ files,
        GoMap.lookup (buckets (collectTests []) inputFiles maxNodes).1 0 = some files ∧
          List.Sorted (fun a b : String => a < b) files ∧ ∀ f, f ∈ files ↔ f ∈ inputFiles) ∧
      (∀ i : Int, 0 < i → i < maxNodes →
        GoMap.lookup (buckets (collectTests []) inputFiles maxNodes).1 i = some []) ∧
      ∀ i : Int, GoMap.index (buckets (collectTests []) inputFiles maxNodes).2 i 0 = 0 := by
  have hc : collectTests [] = [] := rfl
  rw [hc]
  obtain ⟨n, rfl⟩ := Int.eq_ofNat_of_zero_le (le_trans (by decide) hN)
  have hn : 1 ≤ n := by exact_mod_cast hN
  have hinit0 : GoMap.lookup (initChunks (n : Int)).1 0 = some [] := by
    rw [lookup_initChunks, if_pos ⟨le_refl 0, by exact_mod_cast hn⟩]
  obtain ⟨r1, r2, r3⟩ := foldl_assignFile_zero n hn (sortFiles (reconcile [] inputFiles))
    (initChunks (n : Int)) []
    (fun p hp => reconcile_empty_values inputFiles p ((mem_sortFiles _ p).1 hp))
    (index_initChunks (n : Int)) hinit0
  refine ⟨?_, ⟨_, r2, ?_, ?_⟩, ?_, r1⟩
  · intro f hf
    rw [lookup_reconcile, if_pos hf]
    simp [sumTiming, avgFileTime, GoMap.lookup]
  · rw [List.nil_append]
    exact (List.pairwise_map).2 (sorted_sortFiles _ (nodup_keys_reconcile [] inputFiles))
  · intro f
    rw [List.nil_append, ← mem_keys_reconcile [] inputFiles f]
    exact ((perm_sortFiles (reconcile [] inputFiles)).map Prod.fst).mem_iff
  · intro i hi0 hi
    have h := r3 i (ne_of_gt hi0)
    unfold buckets partition
    rw [h, lookup_initChunks, if_pos ⟨le_of_lt hi0, hi⟩]

/-- C6 amended, Scenario B: input `[f1, f2, f3]` on two nodes. -/
theorem empty_history_fills_first_chunk_witness :
    ((∀ f ∈ ["f1", "f2", "f3"],
        GoMap.lookup (reconcile (collectTests []) ["f1", "f2", "f3"]) f = some 0) ∧
      (∃ files,
        GoMap.lookup (buckets (collectTests []) ["f1", "f2", "f3"] 2).1 0 = some files ∧
          List.Sorted (fun a b : String => a < b) files ∧
          ∀ f, f ∈ files ↔ f ∈ ["f1", "f2", "f3"]) ∧
      (∀ i : Int, 0 < i → i < 2 →
        GoMap.lookup (buckets (collectTests []) ["f1", "f2", "f3"] 2).1 i = some []) ∧
      ∀ i : Int, GoMap.index (buckets (collectTests []) ["f1", "f2", "f3"] 2).2 i 0 = 0) ∧
      GoMap.lookup (buckets (collectTests []) ["f1", "f2", "f3"] 2).1 0
        = some ["f1", "f2", "f3"] ∧
      GoMap.lookup (buckets (collectTests []) ["f1", "f2", "f3"] 2).1 1 = some [] :=
  ⟨empty_history_fills_first_chunk ["f1", "f2", "f3"] 2 (by decide), by decide!, by decide!⟩

/-! ## Invalid node count and node index -/

theorem buckets_nonpos (tests : GoMap String Tests) (inputFiles : List String)
    (maxNodes : Int) (hN : maxNodes ≤ 0) (k : Int) (hk : k ≠ -1) :
    GoMap.lookup (buckets tests inputFiles maxNodes).1 k = none := by
  unfold buckets partition
  refine foldl_assignFile_nonpos maxNodes hN _ _ ?_ k hk
  intro k' _
  rw [lookup_initChunks, if_neg]
  intro h
  omega

/-- C10 fails on the code: with `NODES_COUNT = 0`, input `[a]` and `NODE_ID = -1` the scan
leaves `chunk = -1`, so a chunk is created under index `-1`, the file is appended to it and
its name is written. -/
theorem nonpositive_count_emits :
    (buckets (collectTests []) ["a"] 0).1 = [(-1, ["a"])] ∧
      splitter [] ["a"] 0 (-1) = some ["a"] := by
  decide!

/-- For a node count `N <= 0` no chunk exists under any index other than `-1`, and for every
node index other than `-1` the chunk lookup takes the error branch, so no file name is
written. -/
theorem nonpositive_count_no_chunk (testCases : List RSpecTestCase) (inputLines : List String)
    (maxNodes currentNode : Int) (hN : maxNodes ≤ 0) (hnode : currentNode ≠ -1) :
    (∀ k : Int, k ≠ -1 →
      GoMap.lookup (buckets (collectTests testCases) (filterBlank inputLines) maxNodes).1 k
        = none) ∧
      splitter testCases inputLines maxNodes currentNode = none :=
  ⟨fun k hk => buckets_nonpos _ _ maxNodes hN k hk,
    buckets_nonpos _ _ maxNodes hN currentNode hnode⟩

/-- The error branch at `NODES_COUNT = 0` and `NODE_ID = 0`. -/
theorem nonpositive_count_no_chunk_witness :
    (∀ k : Int, k ≠ -1 →
      GoMap.lookup
          (buckets (collectTests [{ Name := "t", File := "a", Time := 1 }])
            (filterBlank ["a", "b"]) 0).1 k
        = none) ∧
      splitter [{ Name := "t", File := "a", Time := 1 }] ["a", "b"] 0 0 = none :=
  nonpositive_count_no_chunk [{ Name := "t", File := "a", Time := 1 }] ["a", "b"] 0 0
    (by decide) (by decide)

/-! ## The sentinel of the scan -/

theorem assignFile_of_load_lt (n : Nat) (st : GoMap Int (List String) × GoMap Int ℚ)
    (item : String × ℚ) (i₀ : Nat) (hi₀ : i₀ < n)
    (hlt : GoMap.index st.2 (i₀ : Int) 0 < 100000000) :
    ∃ j < n,
      (∀ i < n, GoMap.index st.2 (j : Int) 0 ≤ GoMap.index st.2 (i : Int) 0) ∧
        (∀ i < j, GoMap.index st.2 (j : Int) 0 < GoMap.index st.2 (i : Int) 0) ∧
        assignFile (n : Int) st item
          = (GoMap.store st.1 (j : Int) (GoMap.index st.1 (j : Int) [] ++ [item.1]),
              GoMap.store st.2 (j : Int) (GoMap.index st.2 (j : Int) 0 + item.2)) := by
  rcases selectChunk_spec st.2 n with ⟨_, hall⟩ | ⟨j, hj, hc, _, hmin, hfirst⟩
  · exact absurd hlt (not_lt.2 (hall i₀ hi₀))
  · exact ⟨j, hj, hmin, hfirst, by simp only [assignFile, hc]⟩

theorem foldl_assignFile_keys (n : Nat) (items : List (String × ℚ))
    (st : GoMap Int (List String) × GoMap Int ℚ) (k : Int) (hk : k ≠ -1)
    (hrange : ¬ (0 ≤ k ∧ k < (n : Int))) (hst : GoMap.lookup st.1 k = none) :
    GoMap.lookup (items.foldl (assignFile (n : Int)) st).1 k = none := by
  induction items generalizing st with
  | nil => simpa using hst
  | cons p items ih =>
    simp only [List.foldl_cons]
    apply ih
    simp only [assignFile, GoMap.lookup_store]
    rw [if_neg, hst]
    rcases selectChunk_spec st.2 n with ⟨hc, _⟩ | ⟨j, hj, hc, _⟩
    · rw [hc]; exact fun e => hk e.symm
    · rw [hc]
      intro e
      apply hrange
      rw [← e]
      exact ⟨Int.ofNat_nonneg j, by exact_mod_cast hj⟩

theorem emitChunk_out_of_range (tests : GoMap String Tests) (inputFiles : List String)
    (maxNodes currentNode : Int) (hrange : ¬ (0 ≤ currentNode ∧ currentNode < maxNodes))
    (hnode : currentNode ≠ -1) :
    emitChunk (buckets tests inputFiles maxNodes).1 currentNode = none := by
  unfold emitChunk
  rcases le_or_lt maxNodes 0 with hN | hN
  · exact buckets_nonpos tests inputFiles maxNodes hN currentNode hnode
  · obtain ⟨n, rfl⟩ := Int.eq_ofNat_of_zero_le (le_of_lt hN)
    unfold buckets partition
    refine foldl_assignFile_keys n _ _ currentNode hnode hrange ?_
    rw [lookup_initChunks, if_neg hrange]

/-- C1 fails on the code: with one node, history `a = 100000000s` and input `[a, b]`, file `b`
(average `100000000s`) finds no chunk timing below the initial `min` of the scan, so it is
put under index `-1`: chunk 0 holds `a` only and `b` is in no chunk of `[0, 1)`. -/
theorem coverage_breaks_at_sentinel :
    buckets (collectTests [{ Name := "t", File := "a", Time := 100000000 }]) ["a", "b"] 1
      = ([(0, ["a"]), (-1, ["b"])], [(0, 100000000), (-1, 100000000)]) := by
  decide!

/-- C2 fails on the code: with one node whose timing is `100000000`, the chunk of `[0, 1)`
with the smallest timing is chunk 0, yet the scan returns `-1`; the file is appended under
index `-1` and chunk 0 keeps its files and its timing. -/
theorem greedy_step_misses_at_sentinel :
    selectChunk [(0, 100000000)] 1 = (100000000, -1) ∧
      assignFile 1 ([(0, ["a"])], [(0, 100000000)]) ("b", 5)
        = ([(0, ["a"]), (-1, ["b"])], [(0, 100000000), (-1, 5)]) ∧
      partition (sortFiles [("a", 100000000), ("b", 5)]) 1
        = ([(0, ["a"]), (-1, ["b"])], [(0, 100000000), (-1, 5)]) := by
  decide!

/-- C9 fails on the code: with one node, history `a = 100000000s` and input `[a, b]`, the node
index `-1` lies outside `[0, 1)` and the program writes the file name `b` for it. -/
theorem out_of_range_index_emits :
    splitter [{ Name := "t", File := "a", Time := 100000000 }] ["a", "b"] 1 (-1) = some ["b"] := by
  decide!

/-! ## Colliding keys of the test map -/

theorem store_of_not_mem {K V : Type} [DecidableEq K] (m : GoMap K V) (k : K) (v : V)
    (h : k ∉ GoMap.keys m) : GoMap.store m k v = m ++ [(k, v)] := by
  induction m with
  | nil => rfl
  | cons p rest ih =>
    obtain ⟨a, b⟩ := p
    unfold GoMap.keys at h ih
    simp only [List.map_cons, List.mem_cons, not_or] at h
    have hne : ¬ a = k := fun e => h.1 e.symm
    simp only [GoMap.store, hne, if_false, ih h.2, List.cons_append]

theorem collectTests_aux (testCases : List RSpecTestCase) (acc : GoMap String Tests)
    (hnodup : (testCases.map (fun tc => tc.File ++ "/" ++ tc.Name)).Nodup)
    (hdisj : ∀ tc ∈ testCases, tc.File ++ "/" ++ tc.Name ∉ GoMap.keys acc) :
    testCases.foldl
        (fun tests testCase =>
          GoMap.store tests (testCase.File ++ "/" ++ testCase.Name)
            { Filename := testCase.File, Name := testCase.Name, Time := testCase.Time })
        acc
      = acc ++ testCases.map (fun tc =>
          (tc.File ++ "/" ++ tc.Name,
            ({ Filename := tc.File, Name := tc.Name, Time := tc.Time } : Tests))) := by
  induction testCases generalizing acc with
  | nil => simp
  | cons tc rest ih =>
    simp only [List.map_cons, List.nodup_cons] at hnodup
    simp only [List.foldl_cons, List.map_cons]
    rw [store_of_not_mem acc _ _ (hdisj tc (List.mem_cons_self _ _)), ih _ hnodup.2]
    · simp
    · intro tc' htc'
      unfold GoMap.keys
      simp only [List.map_append, List.map_cons, List.map_nil, List.mem_append,
        List.mem_singleton, not_or]
      refine ⟨hdisj tc' (List.mem_cons_of_mem _ htc'), ?_⟩
      intro e
      apply hnodup.1
      rw [← e]
      exact List.mem_map.2 ⟨tc', htc', rfl⟩

theorem aggregation_of_distinct_keys (testCases : List RSpecTestCase)
    (hnodup : (testCases.map (fun tc => tc.File ++ "/" ++ tc.Name)).Nodup) (file : String) :
    GoMap.index (sumTiming (collectTests testCases)).1 file 0
        = ((testCases.filter (fun tc => decide (tc.File = file))).map (fun tc => tc.Time)).sum ∧
      (sumTiming (collectTests testCases)).2 = (testCases.map (fun tc => tc.Time)).sum := by
  have hc := collectTests_aux testCases [] hnodup (by simp [GoMap.keys])
  rw [List.nil_append] at hc
  unfold collectTests
  rw [hc, index_sumTiming, sumTiming_snd]
  constructor
  · unfold fileTotal
    rw [List.filter_map, List.map_map]
    rfl
  · unfold historyTotal
    rw [List.map_map]
    rfl

/-- C7 fails on the code: the test cases `(file "a", name "b/c", 1s)` and
`(file "a/b", name "c", 2s)` are distinct as (file, name) pairs but share the key `"a/b/c"`;
the second overwrites the first, so file `a` has no aggregate (its tests sum to `1`) and the
grand total is `2` (all records sum to `3`). -/
theorem aggregation_loses_colliding_key :
    sumTiming
        (collectTests [{ Name := "b/c", File := "a", Time := 1 },
          { Name := "c", File := "a/b", Time := 2 }])
      = ([("a/b", 2)], 2) := by
  decide!

/-! ## Coverage below the sentinel -/

theorem sum_count_store_of_lt (chunks : GoMap Int (List String)) (n j : Nat) (hj : j < n)
    (file f : String) :
    ∑ i ∈ Finset.range n,
        (GoMap.index (GoMap.store chunks (j : Int) (GoMap.index chunks (j : Int) [] ++ [file]))
          (i : Int) []).count f
      = (∑ i ∈ Finset.range n, (GoMap.index chunks (i : Int) []).count f) + [file].count f := by
  have h : ∀ i ∈ Finset.range n,
      (GoMap.index (GoMap.store chunks (j : Int) (GoMap.index chunks (j : Int) [] ++ [file]))
          (i : Int) []).count f
        = (GoMap.index chunks (i : Int) []).count f + (if i = j then [file].count f else 0) := by
    intro i _
    rw [GoMap.index_store]
    by_cases e : i = j
    · subst e
      simp only [if_true, List.count_append]
    · have : ¬ (j : Int) = (i : Int) := by
        intro h'
        exact e (Int.ofNat.inj h').symm
      simp only [e, this, if_false, add_zero]
  rw [Finset.sum_congr rfl h, Finset.sum_add_distrib, Finset.sum_ite_eq']
  simp [hj]

theorem foldl_assignFile_count (n : Nat) (hn : 1 ≤ n) (S : ℚ) (hS : S < 100000000)
    (items : List (String × ℚ)) (st : GoMap Int (List String) × GoMap Int ℚ)
    (hit : ∀ p ∈ items, 0 ≤ p.2)
    (hsum : (∑ i ∈ Finset.range n, GoMap.index st.2 (i : Int) 0) + (items.map Prod.snd).sum ≤ S)
    (f : String) :
    ∑ i ∈ Finset.range n,
        (GoMap.index (items.foldl (assignFile (n : Int)) st).1 (i : Int) []).count f
      = (∑ i ∈ Finset.range n, (GoMap.index st.1 (i : Int) []).count f)
          + (items.map Prod.fst).count f := by
  induction items generalizing st with
  | nil => simp
  | cons p items ih =>
    simp only [List.foldl_cons]
    have hp := hit p (List.mem_cons_self _ _)
    have hrest : 0 ≤ (items.map Prod.snd).sum := by
      apply List.sum_nonneg
      intro x hx
      obtain ⟨q, hq, rfl⟩ := List.mem_map.1 hx
      exact hit q (List.mem_cons_of_mem _ hq)
    simp only [List.map_cons, List.sum_cons] at hsum
    rcases selectChunk_spec st.2 n with ⟨_, hall⟩ | ⟨j, hj, hc, _, _, _⟩
    · exfalso
      have hle : (n : ℚ) * 100000000 ≤ ∑ i ∈ Finset.range n, GoMap.index st.2 (i : Int) 0 := by
        have := Finset.sum_le_sum (fun i hi => hall i (Finset.mem_range.1 hi))
        simpa using this
      have hn' : (1 : ℚ) ≤ (n : ℚ) := by exact_mod_cast hn
      nlinarith
    · have hst : assignFile (n : Int) st p
          = (GoMap.store st.1 (j : Int) (GoMap.index st.1 (j : Int) [] ++ [p.1]),
              GoMap.store st.2 (j : Int) (GoMap.index st.2 (j : Int) 0 + p.2)) := by
        simp only [assignFile, hc]
      rw [ih _ (fun q hq => hit q (List.mem_cons_of_mem _ hq)), hst]
      · simp only
        rw [sum_count_store_of_lt st.1 n j hj, List.map_cons]
        have : (p.1 :: items.map Prod.fst).count f
            = [p.1].count f + (items.map Prod.fst).count f := by
          rw [← List.count_append]
          rfl
        rw [this]
        ring
      · rw [hst]
        simp only
        rw [sum_index_store_of_lt st.2 n j hj]
        linarith

theorem index_initChunks_files (maxNodes k : Int) :
    GoMap.index (initChunks maxNodes).1 k [] = [] := by
  unfold GoMap.index
  rw [lookup_initChunks]
  split_ifs <;> rfl

theorem coverage_of_small_total (tests : GoMap String Tests) (inputFiles : List String)
    (n : Nat) (hn : 1 ≤ n) (hpos : ∀ p ∈ reconcile tests inputFiles, 0 ≤ p.2)
    (hsmall : totalTime (reconcile tests inputFiles) < 100000000) (f : String) :
    ∑ i ∈ Finset.range n, (GoMap.index (buckets tests inputFiles (n : Int)).1 (i : Int) []).count f
      = if f ∈ inputFiles then 1 else 0 := by
  have hsumeq : ((sortFiles (reconcile tests inputFiles)).map Prod.snd).sum
      = totalTime (reconcile tests inputFiles) :=
    ((perm_sortFiles _).map Prod.snd).sum_eq
  unfold buckets partition
  rw [foldl_assignFile_count n hn (totalTime (reconcile tests inputFiles)) hsmall _ _
    (fun p hp => hpos p ((mem_sortFiles _ p).1 hp)) ?_ f]
  · simp only [index_initChunks_files, List.count_nil, Finset.sum_const_zero, zero_add]
    have hperm : List.Perm ((sortFiles (reconcile tests inputFiles)).map Prod.fst)
        (GoMap.keys (reconcile tests inputFiles)) := (perm_sortFiles _).map Prod.fst
    rw [hperm.count_eq]
    by_cases hf : f ∈ inputFiles
    · rw [if_pos hf]
      exact List.count_eq_one_of_mem (nodup_keys_reconcile tests inputFiles)
        ((mem_keys_reconcile tests inputFiles f).2 hf)
    · rw [if_neg hf]
      exact List.count_eq_zero_of_not_mem
        (fun h => hf ((mem_keys_reconcile tests inputFiles f).1 h))
  · simp only [index_initChunks, Finset.sum_const_zero, zero_add]
    exact le_of_eq hsumeq

/-! ## Rounded sums and the visiting order -/

theorem bitLength_zero (fuel : Nat) : bitLength fuel 0 = 0 := by
  cases fuel <;> simp [bitLength]

theorem bitLength_spec_aux (fuel n : Nat) (hfuel : n ≤ fuel) (hn : 0 < n) :
    2 ^ (bitLength fuel n - 1) ≤ n ∧ n < 2 ^ bitLength fuel n := by
  induction fuel generalizing n with
  | zero => omega
  | succ fuel ih =>
    have hne : n ≠ 0 := Nat.pos_iff_ne_zero.1 hn
    simp only [bitLength, hne, if_false, Nat.add_sub_cancel]
    rcases Nat.eq_zero_or_pos (n / 2) with h0 | hpos
    · rw [h0, bitLength_zero]
      have : n < 2 := by
        by_contra hc
        have := Nat.div_pos (Nat.le_of_not_lt hc) (by decide : 0 < 2)
        omega
      constructor <;> simp <;> omega
    · have hle : n / 2 ≤ fuel := by omega
      obtain ⟨h1, h2⟩ := ih (n / 2) hle hpos
      have hk : 1 ≤ bitLength fuel (n / 2) := by
        by_contra hc
        have hk0 : bitLength fuel (n / 2) = 0 := by omega
        rw [hk0] at h2
        simp at h2
        omega
      obtain ⟨k, hk'⟩ : ∃ k, bitLength fuel (n / 2) = k + 1 := ⟨bitLength fuel (n / 2) - 1, by omega⟩
      rw [hk'] at h1 h2 ⊢
      simp only [Nat.add_sub_cancel] at h1
      rw [pow_succ] at h2 ⊢
      rw [pow_succ]
      constructor <;> omega

/-- The bit length with fuel `n` is the number of binary digits of `n`. -/
theorem bitLength_spec (n : Nat) (hn : 0 < n) :
    2 ^ (bitLength n n - 1) ≤ n ∧ n < 2 ^ bitLength n n :=
  bitLength_spec_aux n n (le_refl n) hn

/-- The rounding at well-known values: `0.1` is `3602879701896397 / 2 ^ 55`, the `float64`
sum `0.1 + 0.2` is `0.30000000000000004 = 1351079888211149 / 2 ^ 52`, `2 ^ 53 + 1` rounds to
`2 ^ 53`, and `1 + 2 ^ (-53)` (a tie) rounds to the even neighbour `1`. -/
theorem roundFloat64_values :
    roundFloat64 (1 / 10) = 3602879701896397 / 36028797018963968 ∧
      roundFloat64 (roundFloat64 (1 / 10) + roundFloat64 (2 / 10))
        = 1351079888211149 / 4503599627370496 ∧
      roundFloat64 9007199254740993 = 9007199254740992 ∧
      roundFloat64 (1 + 1 / 9007199254740992) = 1 ∧
      roundFloat64 (1 / 9007199254740992 + 1 / 9007199254740992) = 1 / 4503599627370496 ∧
      roundFloat64 (1 / 4503599627370496 + 1) = 1 + 1 / 4503599627370496 := by
  decide!

/-- C8 fails on the code: with two nodes, the test cases `a/t1 = 1`, `a/t2 = 2^-53`,
`a/t3 = 2^-53`, `b/t = 1` and the input `[a, b, c]`, two visiting orders of the same `tests`
map give different chunks. Visiting `t1, t2, t3` sums file `a` to `1` and file `c` joins
chunk 0; visiting `t3, t2, t1` sums file `a` to `1 + 2^-52` and file `c` joins chunk 1. -/
theorem summation_order_changes_chunks :
    List.Perm
        (collectTests [{ Name := "t1", File := "a", Time := 1 },
          { Name := "t2", File := "a", Time := 1 / 9007199254740992 },
          { Name := "t3", File := "a", Time := 1 / 9007199254740992 },
          { Name := "t", File := "b", Time := 1 }]).reverse
        (collectTests [{ Name := "t1", File := "a", Time := 1 },
          { Name := "t2", File := "a", Time := 1 / 9007199254740992 },
          { Name := "t3", File := "a", Time := 1 / 9007199254740992 },
          { Name := "t", File := "b", Time := 1 }]) ∧
      bucketsFloat
          (collectTests [{ Name := "t1", File := "a", Time := 1 },
            { Name := "t2", File := "a", Time := 1 / 9007199254740992 },
            { Name := "t3", File := "a", Time := 1 / 9007199254740992 },
            { Name := "t", File := "b", Time := 1 }])
          ["a", "b", "c"] 2
        = ([(0, ["a", "c"]), (1, ["b"])], [(0, 2), (1, 1)]) ∧
      bucketsFloat
          (collectTests [{ Name := "t1", File := "a", Time := 1 },
            { Name := "t2", File := "a", Time := 1 / 9007199254740992 },
            { Name := "t3", File := "a", Time := 1 / 9007199254740992 },
            { Name := "t", File := "b", Time := 1 }]).reverse
          ["a", "b", "c"] 2
        = ([(0, ["a"]), (1, ["b", "c"])], [(0, 1 + 1 / 4503599627370496), (1, 2)]) :=
  ⟨List.reverse_perm _, by decide!, by decide!⟩

end Splitter
